import Mathlib

/-!
# Verification of the gcaops graph subsystem

A shallow embedding, in Lean 4, of the graph-algebra core of the `gcaops`
package: edge-list graphs, the canonicalization routine of
`util/formality_graph_sage.py`, the basis lookup of
`graph/formality_graph_basis.py` and `graph/undirected_graph_basis.py`,
the graph cache of `graph/graph_cache.py`, and the dictionary-backed
graph vectors of `graph/graph_vector_dict.py`.  External collaborators
(the canonical-labeling oracle, the generation oracle, the base ring, the
basis maps) are abstracted as parameters.  Helper code of the package that
is referenced but whose source is not part of the embedded core (the
in-place selection sort of `util/permutation.py`, the `FormalityGraph`
methods `relabeled` and `canonicalize_edges`) is modelled from its
specification; such definitions are marked in their doc comments.
-/

namespace Gcaops

open List

variable {α : Type*}

/-- Smallest element among `a :: as`, with respect to a linear order. -/
def listMin [LinearOrder α] (a : α) (as : List α) : α := as.foldr min a

theorem listMin_mem [LinearOrder α] (a : α) (as : List α) : listMin a as ∈ a :: as := by
  induction as with
  | nil => simp [listMin]
  | cons b bs ih =>
    show min b (listMin a bs) ∈ a :: b :: bs
    rcases min_choice b (listMin a bs) with h | h
    · rw [h]; exact mem_cons_of_mem a (mem_cons_self b bs)
    · rw [h]
      rcases mem_cons.mp ih with h2 | h2
      · rw [h2]; exact mem_cons_self a (b :: bs)
      · exact mem_cons_of_mem a (mem_cons_of_mem b h2)

theorem listMin_le [LinearOrder α] (a : α) (as : List α) :
    ∀ b ∈ a :: as, listMin a as ≤ b := by
  induction as with
  | nil =>
    intro b hb
    have hb2 : b = a := by simpa using hb
    subst hb2
    exact le_refl _
  | cons c cs ih =>
    intro b hb
    show min c (listMin a cs) ≤ b
    rcases mem_cons.mp hb with h | h
    · rw [h]
      exact le_trans (min_le_right _ _) (ih a (mem_cons_self a cs))
    · rcases mem_cons.mp h with h2 | h2
      · rw [h2]; exact min_le_left _ _
      · exact le_trans (min_le_right _ _) (ih b (mem_cons_of_mem a h2))

/-- Modelled from the spec: the stable in-place selection sort of
`util/permutation.py` (whose source is not included in the embedded core);
per the spec it sorts the list and returns the sign of the permutation used,
accumulated as a "stable selection-sort parity count": each round extracts the
first occurrence of the minimum, at index `m`, rotating it to the front, which
contributes `(-1) ^ m`.  This version is driven by explicit fuel so that it is
a structural recursion; `selSort` below instantiates the fuel. -/
def selSortF [LinearOrder α] [DecidableEq α] : ℕ → List α → List α × ℤ
  | _, [] => ([], 1)
  | 0, l => (l, 1)
  | fuel+1, a :: as =>
    let μ := listMin a as
    let p := selSortF fuel ((a :: as).erase μ)
    (μ :: p.1, (-1) ^ ((a :: as).indexOf μ) * p.2)

/-- Modelled from the spec: stable selection sort returning the sorted list
together with the sign of the sorting permutation. -/
def selSort [LinearOrder α] [DecidableEq α] (l : List α) : List α × ℤ :=
  selSortF l.length l

theorem selSortF_congr [LinearOrder α] [DecidableEq α] :
    ∀ (fuel : ℕ) (l : List α), l.length ≤ fuel → selSortF fuel l = selSortF l.length l := by
  intro fuel
  induction fuel with
  | zero =>
    intro l hl
    interval_cases h : l.length
    · cases l with
      | nil => rfl
      | cons a as => simp at h
  | succ f ih =>
    intro l hl
    cases l with
    | nil => rfl
    | cons a as =>
      have hmem := listMin_mem a as
      have herase : ((a :: as).erase (listMin a as)).length = as.length := by
        have := length_erase_add_one hmem
        simp only [length_cons] at this
        omega
      have has : as.length ≤ f := by
        simp only [length_cons] at hl
        omega
      show (_, _) = (_, _)
      rw [ih _ (by rw [herase]; exact has), herase]

theorem selSort_cons [LinearOrder α] [DecidableEq α] (a : α) (as : List α) :
    selSort (a :: as) =
      ((listMin a as) :: (selSort ((a :: as).erase (listMin a as))).1,
        (-1) ^ ((a :: as).indexOf (listMin a as)) * (selSort ((a :: as).erase (listMin a as))).2) := by
  have hmem := listMin_mem a as
  have herase : ((a :: as).erase (listMin a as)).length = as.length := by
    have := length_erase_add_one hmem
    simp only [length_cons] at this
    omega
  show selSortF (as.length + 1) (a :: as) = _
  show (_, _) = (_, _)
  rw [selSortF_congr as.length _ (le_of_eq herase)]
  rfl

theorem selSort_nil [LinearOrder α] [DecidableEq α] : selSort ([] : List α) = ([], 1) := rfl

theorem selSort_spec_aux [LinearOrder α] [DecidableEq α] :
    ∀ (n : ℕ) (l : List α), l.length = n →
      (selSort l).1 ~ l ∧ (selSort l).1.Sorted (· ≤ ·) ∧
        ((selSort l).2 = 1 ∨ (selSort l).2 = -1) := by
  intro n
  induction n using Nat.strong_induction_on with
  | _ n ih =>
    intro l hn
    cases l with
    | nil =>
      refine ⟨by simp [selSort_nil], by simp [selSort_nil], Or.inl rfl⟩
    | cons a as =>
      have hmem := listMin_mem a as
      have herase : ((a :: as).erase (listMin a as)).length = as.length := by
        have := length_erase_add_one hmem
        simp only [length_cons] at this
        omega
      have hlt : as.length < n := by
        simp only [length_cons] at hn
        omega
      obtain ⟨hrp, hrs, hru⟩ := ih as.length hlt ((a :: as).erase (listMin a as)) herase
      rw [selSort_cons]
      refine ⟨?_, ?_, ?_⟩
      · calc (listMin a as) :: (selSort ((a :: as).erase (listMin a as))).1
            ~ (listMin a as) :: (a :: as).erase (listMin a as) := Perm.cons _ hrp
          _ ~ a :: as := (perm_cons_erase hmem).symm
      · refine sorted_cons.mpr ⟨?_, hrs⟩
        intro b hb
        have hb2 : b ∈ (a :: as).erase (listMin a as) := hrp.mem_iff.mp hb
        exact listMin_le a as b (mem_of_mem_erase hb2)
      · have hpow : (-1 : ℤ) ^ ((a :: as).indexOf (listMin a as)) = 1 ∨
            (-1 : ℤ) ^ ((a :: as).indexOf (listMin a as)) = -1 := neg_one_pow_eq_or ℤ _
        rcases hru with h | h <;> rcases hpow with h2 | h2 <;> rw [h, h2] <;> norm_num

theorem selSort_fst_perm [LinearOrder α] [DecidableEq α] (l : List α) :
    (selSort l).1 ~ l :=
  (selSort_spec_aux l.length l rfl).1

theorem selSort_fst_sorted [LinearOrder α] [DecidableEq α] (l : List α) :
    (selSort l).1.Sorted (· ≤ ·) :=
  (selSort_spec_aux l.length l rfl).2.1

theorem selSort_snd_units [LinearOrder α] [DecidableEq α] (l : List α) :
    (selSort l).2 = 1 ∨ (selSort l).2 = -1 :=
  (selSort_spec_aux l.length l rfl).2.2

/-- The permutation `π` carries the list `X` onto the list `Y` positionally: both lists have
length `n`, and for every position `i` the entry of `X` at `i` occurs in `Y` at
position `π i`.  This is the "permutation that maps one edge list onto another"
of the specification of the canonicalizer's sign. -/
def PermutesTo (n : ℕ) (π : Equiv.Perm (Fin n)) (X Y : List α) : Prop :=
  X.length = n ∧ Y.length = n ∧ ∀ i : Fin n, Y[(π i : ℕ)]? = X[(i : ℕ)]?

theorem permutesTo_comp {n : ℕ} {π₁ π₂ : Equiv.Perm (Fin n)} {X Y Z : List α}
    (h1 : PermutesTo n π₁ X Y) (h2 : PermutesTo n π₂ Y Z) :
    PermutesTo n (π₂ * π₁) X Z :=
  ⟨h1.1, h2.2.1, fun i => by
    rw [Equiv.Perm.mul_apply, h2.2.2 (π₁ i), h1.2.2 i]⟩

theorem permutesTo_getElem {n : ℕ} {π : Equiv.Perm (Fin n)} {X Y : List α}
    (h : PermutesTo n π X Y) (i : Fin n) (hy : (π i : ℕ) < Y.length)
    (hx : (i : ℕ) < X.length) : Y[(π i : ℕ)] = X[(i : ℕ)] := by
  have := h.2.2 i
  rw [getElem?_eq_getElem hy, getElem?_eq_getElem hx] at this
  exact Option.some_injective _ this

theorem permutesTo_unique {n : ℕ} {π π' : Equiv.Perm (Fin n)} {X Y : List α}
    (hY : Y.Nodup) (h1 : PermutesTo n π X Y) (h2 : PermutesTo n π' X Y) : π = π' := by
  apply Equiv.ext
  intro i
  have hy1 : (π i : ℕ) < Y.length := by rw [h1.2.1]; exact (π i).isLt
  have hy2 : (π' i : ℕ) < Y.length := by rw [h1.2.1]; exact (π' i).isLt
  have hx : (i : ℕ) < X.length := by rw [h1.1]; exact i.isLt
  have e1 := permutesTo_getElem h1 i hy1 hx
  have e2 := permutesTo_getElem h2 i hy2 hx
  have : Y[(π i : ℕ)] = Y[(π' i : ℕ)] := by rw [e1, e2]
  have hval : (π i : ℕ) = (π' i : ℕ) := (hY.getElem_inj_iff).mp this
  exact Fin.ext hval

theorem permutesTo_map {β : Type*} {n : ℕ} {π : Equiv.Perm (Fin n)} {X Y : List α}
    (f : α → β) (h : PermutesTo n π X Y) : PermutesTo n π (X.map f) (Y.map f) :=
  ⟨by rw [length_map]; exact h.1, by rw [length_map]; exact h.2.1, fun i => by
    rw [getElem?_map, getElem?_map, h.2.2 i]⟩

theorem permutesTo_indexOf [DecidableEq α] {n : ℕ} {π : Equiv.Perm (Fin n)} {X Y : List α}
    (hY : Y.Nodup) (h : PermutesTo n π X Y) (i : Fin n) (hx : (i : ℕ) < X.length) :
    Y.indexOf X[(i : ℕ)] = (π i : ℕ) := by
  have hy : (π i : ℕ) < Y.length := by rw [h.2.1]; exact (π i).isLt
  have e := permutesTo_getElem h i hy hx
  have hmem : X[(i : ℕ)] ∈ Y := e ▸ getElem_mem hy
  have hidx : Y.indexOf X[(i : ℕ)] < Y.length := indexOf_lt_length.mpr hmem
  have e2 : Y[Y.indexOf X[(i : ℕ)]] = X[(i : ℕ)] := getElem_indexOf hidx
  have : Y[Y.indexOf X[(i : ℕ)]] = Y[(π i : ℕ)] := by rw [e2, e]
  exact (hY.getElem_inj_iff).mp this

theorem permutesTo_exists {X Y : List α} [DecidableEq α] (n : ℕ) (hn : X.length = n)
    (hX : X.Nodup) (hXY : X ~ Y) : ∃ π : Equiv.Perm (Fin n), PermutesTo n π X Y := by
  classical
  have hY : Y.Nodup := hXY.nodup_iff.mp hX
  have hlen : Y.length = n := by rw [← hXY.length_eq, hn]
  have hbound : ∀ i : Fin n, (i : ℕ) < X.length := fun i => by rw [hn]; exact i.isLt
  have hmem : ∀ i : Fin n, X.get ⟨(i : ℕ), hbound i⟩ ∈ Y := fun i =>
    hXY.mem_iff.mp (get_mem X (i : ℕ) (hbound i))
  let f : Fin n → Fin n := fun i =>
    ⟨Y.indexOf (X.get ⟨(i : ℕ), hbound i⟩), by
      have := indexOf_lt_length.mpr (hmem i)
      omega⟩
  have hf : ∀ i : Fin n, Y[(f i : ℕ)]? = X[(i : ℕ)]? := by
    intro i
    have h1 : (f i : ℕ) < Y.length := by rw [hlen]; exact (f i).isLt
    rw [getElem?_eq_getElem h1, getElem?_eq_getElem (hbound i)]
    have h2 : Y[(f i : ℕ)] = X.get ⟨(i : ℕ), hbound i⟩ := getElem_indexOf h1
    rw [h2, List.get_eq_getElem]
  have hinj : Function.Injective f := by
    intro i j hij
    have hv : (f i : ℕ) = (f j : ℕ) := congrArg Fin.val hij
    have hopt : X[(i : ℕ)]? = X[(j : ℕ)]? := by rw [← hf i, ← hf j, hv]
    rw [getElem?_eq_getElem (hbound i), getElem?_eq_getElem (hbound j)] at hopt
    have := (hX.getElem_inj_iff).mp (Option.some_injective _ hopt)
    exact Fin.ext this
  refine ⟨Equiv.ofBijective f ((Finite.injective_iff_bijective).mp hinj), hn, hlen, ?_⟩
  intro i
  exact hf i

theorem val_succAbove {n : ℕ} (p : Fin (n + 1)) (i : Fin n) :
    (p.succAbove i : ℕ) = if (i : ℕ) < (p : ℕ) then (i : ℕ) else (i : ℕ) + 1 := by
  rcases lt_or_ge (Fin.castSucc i) p with h | h
  · rw [Fin.succAbove_of_castSucc_lt _ _ h]
    have hv : (i : ℕ) < (p : ℕ) := by
      simpa [Fin.lt_def] using h
    rw [if_pos hv]
    rfl
  · rw [Fin.succAbove_of_le_castSucc _ _ h]
    have hv : ¬ (i : ℕ) < (p : ℕ) := by
      have := h
      simp only [Fin.le_def, Fin.coe_castSucc] at this
      omega
    rw [if_neg hv, Fin.val_succ]

/-- The sign accumulated by the stable selection sort is the signature of the
permutation that carries the input list onto the sorted output list. -/
theorem selSort_snd_eq_sign [LinearOrder α] [DecidableEq α] :
    ∀ (n : ℕ) (l : List α), l.Nodup → ∀ π : Equiv.Perm (Fin n),
      PermutesTo n π l (selSort l).1 → (selSort l).2 = (Equiv.Perm.sign π : ℤ) := by
  intro n
  induction n using Nat.strong_induction_on with
  | _ n ih =>
    intro l hl π hπ
    cases l with
    | nil =>
      have hn : n = 0 := by
        have := hπ.1
        simp only [length_nil] at this
        omega
      subst hn
      have hπ1 : π = 1 := Equiv.ext fun i => i.elim0
      rw [hπ1, selSort_nil]
      simp
    | cons a as =>
      have hn : n = as.length + 1 := by
        have := hπ.1
        simp only [length_cons] at this
        omega
      subst hn
      set μ := listMin a as with hμ
      have hmem : μ ∈ a :: as := listMin_mem a as
      have hmlt : (a :: as).indexOf μ < (a :: as).length := indexOf_lt_length.mpr hmem
      set m : Fin (as.length + 1) := ⟨(a :: as).indexOf μ, hmlt⟩ with hm
      have herase : ((a :: as).erase μ).length = as.length := by
        have := length_erase_add_one hmem
        simp only [length_cons] at this
        omega
      have hrestnd : ((a :: as).erase μ).Nodup := hl.erase μ
      set ω := π⁻¹ with hωdef
      have hω : ∀ j : Fin (as.length + 1),
          (a :: as)[(ω j : ℕ)]? = (selSort (a :: as)).1[(j : ℕ)]? := by
        intro j
        have := hπ.2.2 (ω j)
        rw [hωdef] at this ⊢
        rw [Equiv.Perm.apply_inv_self] at this
        exact this.symm
      have hsortcons : (selSort (a :: as)).1 = μ :: (selSort ((a :: as).erase μ)).1 := by
        rw [selSort_cons]
      -- ω sends position 0 of the sorted list to the index of the minimum
      have hω0 : ω 0 = m := by
        have h0 := hω 0
        rw [hsortcons] at h0
        simp only [Fin.val_zero, getElem?_cons_zero] at h0
        have hb : (ω 0 : ℕ) < (a :: as).length := by
          have := (ω 0).isLt
          simp only [length_cons]
          omega
        rw [getElem?_eq_getElem hb] at h0
        have hval : (a :: as)[(ω 0 : ℕ)] = μ := Option.some_injective _ h0
        have hmval : (a :: as)[((a :: as).indexOf μ)] = μ := getElem_indexOf hmlt
        have : (a :: as)[(ω 0 : ℕ)] = (a :: as)[((a :: as).indexOf μ)] := by
          rw [hval, hmval]
        have := (hl.getElem_inj_iff).mp this
        exact Fin.ext this
      -- χ fixes 0, so it decomposes as an extension of a permutation e of Fin as.length
      set χ := Fin.cycleRange m * ω with hχdef
      have hχ0 : χ 0 = 0 := by
        rw [hχdef]
        rw [Equiv.Perm.mul_apply, hω0]
        exact Fin.cycleRange_self m
      set e := (Equiv.Perm.decomposeFin χ).2 with hedef
      have hχsymm : Equiv.Perm.decomposeFin.symm (0, e) = χ := by
        have h1 : Equiv.Perm.decomposeFin.symm (Equiv.Perm.decomposeFin χ) = χ :=
          Equiv.symm_apply_apply _ _
        have hfst : (Equiv.Perm.decomposeFin χ).1 = 0 := by
          have h2 : Equiv.Perm.decomposeFin.symm
              ((Equiv.Perm.decomposeFin χ).1, (Equiv.Perm.decomposeFin χ).2) = χ := h1
          have h3 := Equiv.Perm.decomposeFin_symm_apply_zero
            (Equiv.Perm.decomposeFin χ).1 (Equiv.Perm.decomposeFin χ).2
          rw [h2] at h3
          rw [← h3, hχ0]
        calc Equiv.Perm.decomposeFin.symm (0, e)
            = Equiv.Perm.decomposeFin.symm
              ((Equiv.Perm.decomposeFin χ).1, (Equiv.Perm.decomposeFin χ).2) := by
              rw [hfst]
          _ = χ := h1
      have hsucc : ∀ x : Fin as.length, χ x.succ = (e x).succ := by
        intro x
        rw [← hχsymm, Equiv.Perm.decomposeFin_symm_apply_succ]
        rw [Equiv.swap_self]
        rfl
      have hωsucc : ∀ x : Fin as.length, ω x.succ = m.succAbove (e x) := by
        intro x
        have h1 : Fin.cycleRange m (ω x.succ) = (e x).succ := by
          have := hsucc x
          rw [hχdef] at this
          exact this
        have h2 : ω x.succ = (Fin.cycleRange m).symm ((e x).succ) := by
          rw [← h1, Equiv.symm_apply_apply]
        rw [h2, Fin.cycleRange_symm_succ]
      -- the restriction of the problem to the list with the minimum removed
      have hgetrest : ∀ x : Fin as.length,
          ((a :: as).erase μ)[(e x : ℕ)]? = (selSort ((a :: as).erase μ)).1[(x : ℕ)]? := by
        intro x
        have heidx : (a :: as).erase μ = (a :: as).eraseIdx ((a :: as).indexOf μ) := by
          have := hl.erase_getElem ((a :: as).indexOf μ) hmlt
          rw [getElem_indexOf hmlt] at this
          exact this
        have hsa : ((a :: as).eraseIdx ((a :: as).indexOf μ))[(e x : ℕ)]?
            = (a :: as)[(m.succAbove (e x) : ℕ)]? := by
          rw [val_succAbove]
          rcases lt_or_ge ((e x : ℕ)) ((m : ℕ)) with hlt | hge
          · rw [if_pos (by exact hlt), getElem?_eraseIdx_of_lt _ _ _ (by exact hlt)]
          · rw [if_neg (by omega), getElem?_eraseIdx_of_ge _ _ _ (by exact hge)]
        rw [heidx, hsa, ← hωsucc x]
        have := hω x.succ
        rw [hsortcons] at this
        rw [this]
        simp
      have hrest : PermutesTo as.length e⁻¹ ((a :: as).erase μ)
          (selSort ((a :: as).erase μ)).1 := by
        refine ⟨herase, ?_, ?_⟩
        · rw [(selSort_fst_perm _).length_eq, herase]
        · intro j
          have := hgetrest (e⁻¹ j)
          rw [Equiv.Perm.apply_inv_self] at this
          exact this.symm
      have hihres := ih as.length (by omega) ((a :: as).erase μ) hrestnd e⁻¹ hrest
      -- assemble the sign
      have hsign_e : Equiv.Perm.sign e = Equiv.Perm.sign e⁻¹ := (Equiv.Perm.sign_inv e).symm
      have hsign_χ : Equiv.Perm.sign χ = Equiv.Perm.sign e := by
        rw [← hχsymm, Equiv.Perm.decomposeFin.symm_sign]
        simp
      have hωeq : ω = (Fin.cycleRange m)⁻¹ * χ := by
        rw [hχdef]
        group
      have hsign_ω : Equiv.Perm.sign ω = (-1) ^ ((a :: as).indexOf μ) * Equiv.Perm.sign e := by
        rw [hωeq, Equiv.Perm.sign_mul, Equiv.Perm.sign_inv, Fin.sign_cycleRange, hsign_χ]
      have hsign_π : Equiv.Perm.sign π = (-1) ^ ((a :: as).indexOf μ) * Equiv.Perm.sign e := by
        rw [show π = ω⁻¹ by rw [hωdef]; group, Equiv.Perm.sign_inv, hsign_ω]
      rw [selSort_cons, hsign_π]
      show (-1) ^ ((a :: as).indexOf μ) * (selSort ((a :: as).erase μ)).2 = _
      rw [hihres, ← hsign_e]
      push_cast
      ring

/-- Python's `lst.index(x)`: the position of the first occurrence of `x` in the list,
as computed by the decidable equality of the element type. -/
def idxIn {β : Type*} [DecidableEq β] (l : List β) (x : β) : ℕ := l.indexOf x

/-- The sign that the canonicalizer computes by selection-sorting the list of
positions (`index_permutation` in the source) equals the signature of the
permutation carrying `X` onto `Y`. -/
theorem selSort_idx_eq_sign [DecidableEq α] {n : ℕ} {X Y : List α}
    (hX : X.Nodup) (hXY : X ~ Y) (π : Equiv.Perm (Fin n)) (hπ : PermutesTo n π X Y) :
    (selSort (X.map (fun e => idxIn Y e))).2 = (Equiv.Perm.sign π : ℤ) := by
  simp only [idxIn]
  have hY : Y.Nodup := hXY.nodup_iff.mp hX
  set p := X.map (fun e => Y.indexOf e) with hp
  have hplen : p.length = n := by rw [hp, length_map, hπ.1]
  have hpval : ∀ i : Fin n, p[(i : ℕ)]? = some ((π i : ℕ)) := by
    intro i
    have hx : (i : ℕ) < X.length := by rw [hπ.1]; exact i.isLt
    rw [hp, getElem?_map, getElem?_eq_getElem hx]
    have := permutesTo_indexOf hY hπ i hx
    simp [this]
  have hpeq : p = (finRange n).map (fun i => (π i : ℕ)) := by
    apply List.ext_getElem?
    intro k
    rcases lt_or_ge k n with hk | hk
    · have h2 : (finRange n)[k]? = some ⟨k, hk⟩ := by
        rw [getElem?_eq_getElem (by simpa using hk)]
        simp [List.get_finRange]
      have hB : ((finRange n).map (fun i => ((π i : ℕ))))[k]? = some ((π ⟨k, hk⟩ : ℕ)) := by
        rw [getElem?_map, h2]
        rfl
      rw [hB]
      exact hpval ⟨k, hk⟩
    · rw [getElem?_eq_none (by omega), getElem?_eq_none (by simp; omega)]
  have hvalinj : Function.Injective (fun i : Fin n => (π i : ℕ)) :=
    Fin.val_injective.comp π.injective
  have hpnodup : p.Nodup := by
    rw [hpeq]
    exact (nodup_finRange n).map hvalinj
  have hperm : p ~ List.range n := by
    rw [hpeq, ← map_coe_finRange n]
    have h1 : (finRange n).map π ~ finRange n := Equiv.Perm.map_finRange_perm π
    have h2 := h1.map Fin.val
    rw [map_map] at h2
    exact h2
  have hsort : (selSort p).1 = List.range n :=
    eq_of_perm_of_sorted ((selSort_fst_perm p).trans hperm) (selSort_fst_sorted p)
      (sorted_le_range n)
  have hπp : PermutesTo n π p (selSort p).1 := by
    refine ⟨hplen, by rw [hsort, length_range], ?_⟩
    intro i
    rw [hsort, hpval i, getElem?_range (π i).isLt]
  exact selSort_snd_eq_sign n p hpnodup π hπp

theorem selSort_fst_nodup [LinearOrder α] [DecidableEq α] {l : List α} (hl : l.Nodup) :
    (selSort l).1.Nodup :=
  (selSort_fst_perm l).nodup_iff.mpr hl

theorem selSort_fst_eq_of_perm [LinearOrder α] [DecidableEq α] {l l' : List α}
    (h : l ~ l') : (selSort l).1 = (selSort l').1 :=
  eq_of_perm_of_sorted ((selSort_fst_perm l).trans (h.trans (selSort_fst_perm l').symm))
    (selSort_fst_sorted l) (selSort_fst_sorted l')

/-! ## Edge lists

Edges of a formality graph are ordered pairs `(source, target)` of vertex
labels.  The external graph library lists the edges of a digraph sorted
lexicographically; the embedding realizes this with the lexicographic order on
pairs, through the `Lex` synonym. -/

/-- The edge list sorted lexicographically, as the external graph library's
`edges(sort=True)` produces it and as the in-place selection sort of
`canonicalize_edges` produces it. -/
def sortEdges (l : List (ℕ × ℕ)) : List (ℕ × ℕ) :=
  ((selSort (l.map (toLex : ℕ × ℕ → Lex (ℕ × ℕ)))).1).map (ofLex : Lex (ℕ × ℕ) → ℕ × ℕ)

/-- The sign of the permutation performed by selection-sorting the edge list,
as returned by `canonicalize_edges`. -/
def edgeSortSign (l : List (ℕ × ℕ)) : ℤ :=
  (selSort (l.map (toLex : ℕ × ℕ → Lex (ℕ × ℕ)))).2

theorem map_toLex_sortEdges (l : List (ℕ × ℕ)) :
    (sortEdges l).map (toLex : ℕ × ℕ → Lex (ℕ × ℕ))
      = (selSort (l.map (toLex : ℕ × ℕ → Lex (ℕ × ℕ)))).1 := by
  rw [sortEdges, map_map]
  have : ((toLex : ℕ × ℕ → Lex (ℕ × ℕ)) ∘ (ofLex : Lex (ℕ × ℕ) → ℕ × ℕ)) = id := by
    funext x
    rfl
  rw [this, map_id]

theorem sortEdges_perm (l : List (ℕ × ℕ)) : sortEdges l ~ l := by
  have h1 := (selSort_fst_perm (l.map (toLex : ℕ × ℕ → Lex (ℕ × ℕ)))).map
    (ofLex : Lex (ℕ × ℕ) → ℕ × ℕ)
  rw [map_map] at h1
  have : ((ofLex : Lex (ℕ × ℕ) → ℕ × ℕ) ∘ (toLex : ℕ × ℕ → Lex (ℕ × ℕ))) = id := by
    funext x
    rfl
  rw [this, map_id] at h1
  exact h1

theorem sortEdges_nodup {l : List (ℕ × ℕ)} (hl : l.Nodup) : (sortEdges l).Nodup :=
  (sortEdges_perm l).nodup_iff.mpr hl

theorem sortEdges_eq_of_perm {l l' : List (ℕ × ℕ)} (h : l ~ l') :
    sortEdges l = sortEdges l' := by
  rw [sortEdges, sortEdges,
    selSort_fst_eq_of_perm (h.map (toLex : ℕ × ℕ → Lex (ℕ × ℕ)))]

/-- The edge-sort sign computed by `canonicalize_edges` is the signature of the
permutation carrying the edge list onto its sorted version. -/
theorem edgeSortSign_eq_sign {n : ℕ} {l : List (ℕ × ℕ)} (hl : l.Nodup)
    (π : Equiv.Perm (Fin n)) (hπ : PermutesTo n π l (sortEdges l)) :
    edgeSortSign l = (Equiv.Perm.sign π : ℤ) := by
  have h1 := permutesTo_map (toLex : ℕ × ℕ → Lex (ℕ × ℕ)) hπ
  rw [map_toLex_sortEdges] at h1
  have h2 : (l.map (toLex : ℕ × ℕ → Lex (ℕ × ℕ))).Nodup :=
    hl.map (fun x y hxy => congrArg (ofLex : Lex (ℕ × ℕ) → ℕ × ℕ) hxy)
  exact selSort_snd_eq_sign n _ h2 π h1

/-! ## Formality graphs and the canonicalizer

`FormalityGraph` is modelled from the spec (the file `graph/formality_graph.py`
is not part of the embedded core): a graph with `gv` ground vertices
`0, …, gv-1`, `av` aerial vertices `gv, …, gv+av-1`, and an ordered list of
directed edges. -/

structure FormalityGraph where
  gv : ℕ
  av : ℕ
  edges : List (ℕ × ℕ)
deriving DecidableEq, Repr

/-- Modelled from the spec: `FormalityGraph.relabeled` returns the graph whose
edges are the original edges with every endpoint `v` replaced by
`relabeling[v]`. -/
def FormalityGraph.relabeled (g : FormalityGraph) (r : List ℕ) : FormalityGraph :=
  ⟨g.gv, g.av, g.edges.map (fun e => (r.getD e.1 0, r.getD e.2 0))⟩

/-- Modelled from the spec: `FormalityGraph.canonicalize_edges` sorts the edge
list lexicographically in place and returns the sign of that edge permutation;
here the pair (graph with sorted edges, sign). -/
def FormalityGraph.canonicalize_edges (g : FormalityGraph) : FormalityGraph × ℤ :=
  (⟨g.gv, g.av, sortEdges g.edges⟩, edgeSortSign g.edges)

/-- Applying a vertex relabeling to a single directed edge. -/
def edgeMap (σ : ℕ → ℕ) (e : ℕ × ℕ) : ℕ × ℕ := (σ e.1, σ e.2)

/-- The first `k` (for `k < n`) such that `σ k = v`; used to invert the
canonicalizing permutation, as the loop `for k, v in sigma.items():
undo_canonicalize[v] = k` does. -/
def invAt (σ : ℕ → ℕ) (n v : ℕ) : ℕ :=
  (((List.range n).find? (fun k => σ k == v)).getD 0)

/-- The list `undo_canonicalize` built by `formality_graph_canonicalize`. -/
def undoList (σ : ℕ → ℕ) (n : ℕ) : List ℕ := (List.range n).map (invAt σ n)

/-- The function `formality_graph_canonicalize` of `util/formality_graph_sage.py`.  The
external canonical-labeling oracle (`DiGraph.canonical_label` with the
ground/aerial partition) is abstracted by the relabeling `σ` it certifies: the
canonical digraph is the input relabeled by `σ`, and its edge list is listed in
sorted order.  The multi-edge check compares the number of edges of the
loop-augmented simple digraph — the number of *distinct* edges — with the
length of the edge list, and fails (`None`, modelling the raised `ValueError`)
when they differ.  On success it returns the canonical graph, the inverse
relabeling `undo_canonicalize`, and the sign obtained by selection-sorting
`index_permutation`, the list of positions of the relabeled original edges in
the sorted canonical edge list. -/
def formality_graph_canonicalize (σ : ℕ → ℕ) (g : FormalityGraph) :
    Option (FormalityGraph × List ℕ × ℤ) :=
  let n := g.gv + g.av
  if g.edges.dedup.length ≠ g.edges.length then none
  else
    let new_edges := sortEdges (g.edges.map (edgeMap σ))
    let edge_permutation := g.edges.map (edgeMap σ)
    let index_permutation := edge_permutation.map (fun e => idxIn new_edges e)
    some (⟨g.gv, g.av, new_edges⟩, undoList σ n, (selSort index_permutation).2)

theorem dedup_length_eq_iff [DecidableEq α] {l : List α} :
    l.dedup.length = l.length ↔ l.Nodup := by
  constructor
  · intro h
    have hsub : l.dedup <+ l := dedup_sublist l
    have heq : l.dedup = l := hsub.eq_of_length h
    rw [← heq]
    exact nodup_dedup l
  · intro h
    rw [h.dedup]

theorem find?_eq_some_of_unique {β : Type*} {p : β → Bool} {a : β} :
    ∀ {l : List β}, a ∈ l → p a = true → (∀ b ∈ l, p b = true → b = a) →
      l.find? p = some a := by
  intro l
  induction l with
  | nil => intro h; simp at h
  | cons b bs ih =>
    intro hmem hpa huniq
    by_cases hpb : p b = true
    · have : b = a := huniq b (mem_cons_self b bs) hpb
      rw [find?_cons_of_pos _ hpb, this]
    · have hne : a ≠ b := fun h => hpb (h ▸ hpa)
      have hmem2 : a ∈ bs := by
        rcases mem_cons.mp hmem with h | h
        · exact absurd h hne
        · exact h
      rw [find?_cons_of_neg _ (by simpa using hpb)]
      exact ih hmem2 hpa (fun b2 hb2 => huniq b2 (mem_cons_of_mem b hb2))

theorem invAt_sigma {σ : ℕ → ℕ} {n : ℕ}
    (hσinj : ∀ v w, v < n → w < n → σ v = σ w → v = w) {a : ℕ} (ha : a < n) :
    invAt σ n (σ a) = a := by
  have hfind : (List.range n).find? (fun k => σ k == σ a) = some a := by
    apply find?_eq_some_of_unique
    · exact mem_range.mpr ha
    · simp
    · intro b hb hpb
      exact hσinj b a (mem_range.mp hb) ha (by simpa using hpb)
  rw [invAt, hfind]
  rfl

theorem undoList_getD {σ : ℕ → ℕ} {n v : ℕ} (hv : v < n) :
    (undoList σ n).getD v 0 = invAt σ n v := by
  have h1 : (undoList σ n)[v]? = some (invAt σ n v) := by
    rw [undoList, getElem?_map, getElem?_range hv]
    rfl
  rw [getD_eq_getElem?_getD, h1]
  rfl

/-- C5: canonicalization fails (raises, modelled as `none`) exactly when the
edge list contains a duplicate ordered pair — the loop-augmented
simple-digraph encoding collapses multiplicities, detected by comparing edge
counts — and succeeds on every graph with a duplicate-free edge list,
whatever relabeling the oracle certifies. -/
theorem formality_graph_canonicalize_error_iff (σ : ℕ → ℕ) (g : FormalityGraph) :
    formality_graph_canonicalize σ g = none ↔ ¬ g.edges.Nodup := by
  rw [formality_graph_canonicalize]
  by_cases h : g.edges.dedup.length ≠ g.edges.length
  · rw [if_pos h]
    simp only [true_iff]
    intro hnd
    exact h (dedup_length_eq_iff.mpr hnd)
  · rw [if_neg h]
    simp only [reduceCtorEq, false_iff, not_not]
    exact dedup_length_eq_iff.mp (not_ne_iff.mp h)

theorem edgeMap_nodup {σ : ℕ → ℕ} {n : ℕ} {l : List (ℕ × ℕ)} (hl : l.Nodup)
    (hσinj : ∀ v w, v < n → w < n → σ v = σ w → v = w)
    (hend : ∀ e ∈ l, e.1 < n ∧ e.2 < n) : (l.map (edgeMap σ)).Nodup := by
  refine hl.map_on ?_
  intro x hx y hy hxy
  obtain ⟨hx1, hx2⟩ := hend x hx
  obtain ⟨hy1, hy2⟩ := hend y hy
  have h1 : σ x.1 = σ y.1 := congrArg Prod.fst hxy
  have h2 : σ x.2 = σ y.2 := congrArg Prod.snd hxy
  have e1 : x.1 = y.1 := hσinj _ _ hx1 hy1 h1
  have e2 : x.2 = y.2 := hσinj _ _ hx2 hy2 h2
  exact Prod.ext e1 e2

/-- Relabeling back by `undo_canonicalize` undoes the relabeling by `σ`
edge by edge. -/
theorem undo_edgeMap_id (g : FormalityGraph) (σ : ℕ → ℕ)
    (hσlt : ∀ v, v < g.gv + g.av → σ v < g.gv + g.av)
    (hσinj : ∀ v w, v < g.gv + g.av → w < g.gv + g.av → σ v = σ w → v = w)
    (hend : ∀ e ∈ g.edges, e.1 < g.gv + g.av ∧ e.2 < g.gv + g.av) :
    ((g.edges.map (edgeMap σ)).map
      (fun e => ((undoList σ (g.gv + g.av)).getD e.1 0,
        (undoList σ (g.gv + g.av)).getD e.2 0))) = g.edges := by
  rw [map_map]
  have h : ∀ e ∈ g.edges,
      ((fun e => ((undoList σ (g.gv + g.av)).getD e.1 0,
        (undoList σ (g.gv + g.av)).getD e.2 0)) ∘ edgeMap σ) e = id e := by
    intro e he
    obtain ⟨h1, h2⟩ := hend e he
    show ((undoList σ (g.gv + g.av)).getD (σ e.1) 0,
      (undoList σ (g.gv + g.av)).getD (σ e.2) 0) = e
    rw [undoList_getD (hσlt _ h1), undoList_getD (hσlt _ h2),
      invAt_sigma hσinj h1, invAt_sigma hσinj h2]
  rw [map_congr_left h, map_id]

/-- C4: on a formality graph with a duplicate-free edge list, given the
relabeling `σ` certified by the canonical-labeling oracle, the canonicalizer
succeeds and returns: the canonical graph whose edge list is the sorted
relabeled edge list; a sign equal to the signature (computed by the stable
selection-sort count) of the permutation that carries the relabeled original
edge list onto the sorted canonical edge list (such a permutation exists); and
the inverse relabeling `undo_canonicalize`, relabeling by which recovers a
graph with the original ground/aerial structure whose edges are a permutation
of the original edges. -/
theorem formality_graph_canonicalize_spec (g : FormalityGraph) (σ : ℕ → ℕ)
    (hE : g.edges.Nodup)
    (hσlt : ∀ v, v < g.gv + g.av → σ v < g.gv + g.av)
    (hσinj : ∀ v w, v < g.gv + g.av → w < g.gv + g.av → σ v = σ w → v = w)
    (hend : ∀ e ∈ g.edges, e.1 < g.gv + g.av ∧ e.2 < g.gv + g.av) :
    ∃ G undo s, formality_graph_canonicalize σ g = some (G, undo, s) ∧
      G.gv = g.gv ∧ G.av = g.av ∧
      G.edges = sortEdges (g.edges.map (edgeMap σ)) ∧
      (∃ π : Equiv.Perm (Fin g.edges.length),
        PermutesTo g.edges.length π (g.edges.map (edgeMap σ)) G.edges) ∧
      (∀ π : Equiv.Perm (Fin g.edges.length),
        PermutesTo g.edges.length π (g.edges.map (edgeMap σ)) G.edges →
          s = (Equiv.Perm.sign π : ℤ)) ∧
      (G.relabeled undo).gv = g.gv ∧ (G.relabeled undo).av = g.av ∧
      (G.relabeled undo).edges ~ g.edges := by
  set n := g.gv + g.av with hn
  set F := g.edges.map (edgeMap σ) with hF
  have hdedup : ¬ g.edges.dedup.length ≠ g.edges.length :=
    not_ne_iff.mpr (dedup_length_eq_iff.mpr hE)
  have hFnodup : F.Nodup := edgeMap_nodup hE hσinj hend
  have hFlen : F.length = g.edges.length := by rw [hF, length_map]
  refine ⟨⟨g.gv, g.av, sortEdges F⟩, undoList σ n,
    (selSort (F.map (fun e => idxIn (sortEdges F) e))).2, ?_, rfl, rfl, rfl, ?_, ?_, rfl, rfl, ?_⟩
  · rw [formality_graph_canonicalize, if_neg hdedup]
  · exact permutesTo_exists g.edges.length hFlen hFnodup (sortEdges_perm F).symm
  · intro π hπ
    exact selSort_idx_eq_sign hFnodup (sortEdges_perm F).symm π hπ
  · show ((sortEdges F).map
      (fun e => ((undoList σ n).getD e.1 0, (undoList σ n).getD e.2 0))) ~ g.edges
    rw [← undo_edgeMap_id g σ hσlt hσinj hend]
    exact (sortEdges_perm F).map _

/-! ## The operadic formality graph basis

`FormalityGraphOperadBasis.graph_to_key` and `key_to_graph` of
`graph/formality_graph_basis.py`.  The graph cache is abstracted as the map
`cache` from a shape `(gv, av, e)` to the list of graphs stored for that
shape. -/

/-- The grading of a formality graph: ground vertices, aerial vertices,
edges. -/
abbrev FGShape := ℕ × ℕ × ℕ

/-- The shape of a formality graph, `(num_ground_vertices,
num_aerial_vertices, len(edges))`. -/
def FormalityGraph.shape (g : FormalityGraph) : FGShape :=
  (g.gv, g.av, g.edges.length)

/-- Python's `lst.index(x)` wrapped in `try … except ValueError`: the index of
the first occurrence, or `none` when absent. -/
def listIndex? {β : Type*} [DecidableEq β] (l : List β) (x : β) : Option ℕ :=
  if x ∈ l then some (l.indexOf x) else none

theorem listIndex?_getElem {β : Type*} [DecidableEq β] {l : List β} {x : β} {i : ℕ}
    (h : listIndex? l x = some i) : l[i]? = some x := by
  rw [listIndex?] at h
  split_ifs at h with hmem
  · have hi : i = l.indexOf x := (Option.some_injective _ h).symm
    subst hi
    have hlt : l.indexOf x < l.length := indexOf_lt_length.mpr hmem
    rw [getElem?_eq_getElem hlt]
    exact congrArg some (getElem_indexOf hlt)

/-- Embeds `FormalityGraphOperadBasis.graph_to_key`: canonicalize the graph (the
oracle certifying the relabeling `σ`), look the canonical graph up in the
cache's list for its shape, and return the key — shape, index, and the
inverse relabeling — together with the canonicalization sign; `(none, 1)`
when the canonical graph is not in the list; an error (the uncaught
`ValueError` of the canonicalizer) on a multi-edge. -/
def operadGraphToKey (σ : ℕ → ℕ) (cache : FGShape → List FormalityGraph)
    (g : FormalityGraph) : Except Unit (Option (FGShape × ℕ × List ℕ) × ℤ) :=
  match formality_graph_canonicalize σ g with
  | none => .error ()
  | some (G, undo, sgn) =>
    match listIndex? (cache G.shape) G with
    | some i => .ok (some (G.shape, i, undo), sgn)
    | none => .ok (none, 1)

/-- Embeds `FormalityGraphOperadBasis.key_to_graph`: fetch the graph stored at the
key's index for the key's shape, relabel it back to the caller's labeling by
the permutation carried in the key, and sort its edge list in place,
returning the relabeled graph together with the edge-sort sign; `(none, 1)`
when the index is out of range. -/
def operadKeyToGraph (cache : FGShape → List FormalityGraph)
    (key : FGShape × ℕ × List ℕ) : Option FormalityGraph × ℤ :=
  match (cache key.1)[key.2.1]? with
  | some G =>
    let p := (G.relabeled key.2.2).canonicalize_edges
    (some p.1, p.2)
  | none => (none, 1)

/-- C2: the round-trip law for the operadic formality graph basis.  If
`graph_to_key` succeeds on a graph `g` with duplicate-free edges, producing a
key and a sign `s1`, then `key_to_graph` of that key returns a graph `g2`
isomorphic to `g` — same ground/aerial structure, edge list the sorted edge
list of `g`, hence equal to `g` up to the order of the edges — together with
a sign `s` such that `s1 = s * sign(g → g2)`, where `sign(g → g2)` is the
signature of the permutation carrying the edge list of `g` onto that of
`g2`. -/
theorem operad_basis_roundtrip (σ : ℕ → ℕ) (cache : FGShape → List FormalityGraph)
    (g : FormalityGraph) (key : FGShape × ℕ × List ℕ) (s1 : ℤ)
    (hE : g.edges.Nodup)
    (hσlt : ∀ v, v < g.gv + g.av → σ v < g.gv + g.av)
    (hσinj : ∀ v w, v < g.gv + g.av → w < g.gv + g.av → σ v = σ w → v = w)
    (hend : ∀ e ∈ g.edges, e.1 < g.gv + g.av ∧ e.2 < g.gv + g.av)
    (hkey : operadGraphToKey σ cache g = .ok (some key, s1)) :
    ∃ g2 s, operadKeyToGraph cache key = (some g2, s) ∧
      g2.gv = g.gv ∧ g2.av = g.av ∧ g2.edges = sortEdges g.edges ∧ g2.edges ~ g.edges ∧
      (∃ π : Equiv.Perm (Fin g.edges.length),
        PermutesTo g.edges.length π g.edges g2.edges) ∧
      (∀ π : Equiv.Perm (Fin g.edges.length),
        PermutesTo g.edges.length π g.edges g2.edges →
          s1 = s * (Equiv.Perm.sign π : ℤ)) := by
  set n := g.gv + g.av with hn
  set F := g.edges.map (edgeMap σ) with hF
  have hdedup : ¬ g.edges.dedup.length ≠ g.edges.length :=
    not_ne_iff.mpr (dedup_length_eq_iff.mpr hE)
  have hFnodup : F.Nodup := edgeMap_nodup hE hσinj hend
  have hFlen : F.length = g.edges.length := by rw [hF, length_map]
  have hcan : formality_graph_canonicalize σ g =
      some (⟨g.gv, g.av, sortEdges F⟩, undoList σ n,
        (selSort (F.map (fun e => idxIn (sortEdges F) e))).2) := by
    rw [formality_graph_canonicalize, if_neg hdedup]
  simp only [operadGraphToKey, hcan] at hkey
  cases hli : listIndex? (cache (FormalityGraph.shape ⟨g.gv, g.av, sortEdges F⟩))
      (⟨g.gv, g.av, sortEdges F⟩ : FormalityGraph) with
  | none =>
    rw [hli] at hkey
    simp at hkey
  | some idx =>
    rw [hli] at hkey
    have hkey2 : (some ((FormalityGraph.shape ⟨g.gv, g.av, sortEdges F⟩), idx, undoList σ n),
        (selSort (F.map (fun e => idxIn (sortEdges F) e))).2) = ((some key : Option _), s1) := by
      simpa using hkey
    have hkeyval : key = ((FormalityGraph.shape ⟨g.gv, g.av, sortEdges F⟩), idx, undoList σ n) := by
      have := congrArg Prod.fst hkey2
      simpa using this.symm
    have hs1 : s1 = (selSort (F.map (fun e => idxIn (sortEdges F) e))).2 := by
      have := congrArg Prod.snd hkey2
      simpa using this.symm
    have hget : (cache (FormalityGraph.shape ⟨g.gv, g.av, sortEdges F⟩))[idx]?
        = some (⟨g.gv, g.av, sortEdges F⟩ : FormalityGraph) := listIndex?_getElem hli
    set u : ℕ × ℕ → ℕ × ℕ :=
      fun e => ((undoList σ n).getD e.1 0, (undoList σ n).getD e.2 0) with hu
    set T : List (ℕ × ℕ) := (sortEdges F).map u with hT
    have hTid : F.map u = g.edges := undo_edgeMap_id g σ hσlt hσinj hend
    have hTperm : T ~ g.edges := by
      rw [hT, ← hTid]
      exact (sortEdges_perm F).map u
    have hTnodup : T.Nodup := hTperm.nodup_iff.mpr hE
    have hTlen : T.length = g.edges.length := hTperm.length_eq
    have hkres : operadKeyToGraph cache key =
        (some (⟨g.gv, g.av, sortEdges T⟩ : FormalityGraph), edgeSortSign T) := by
      rw [hkeyval, operadKeyToGraph]
      show (match (cache (FormalityGraph.shape ⟨g.gv, g.av, sortEdges F⟩))[idx]? with
        | some G =>
          let p := (G.relabeled (undoList σ n)).canonicalize_edges
          ((some p.1 : Option FormalityGraph), p.2)
        | none => ((none : Option FormalityGraph), 1)) = _
      rw [hget]
      rfl
    obtain ⟨πF, hπF⟩ :=
      permutesTo_exists g.edges.length hFlen hFnodup (sortEdges_perm F).symm
    have hs1sign : s1 = (Equiv.Perm.sign πF : ℤ) := by
      rw [hs1]
      exact selSort_idx_eq_sign hFnodup (sortEdges_perm F).symm πF hπF
    have hπF2 : PermutesTo g.edges.length πF g.edges T := by
      have := permutesTo_map u hπF
      rw [hTid] at this
      exact this
    obtain ⟨πT, hπT⟩ :=
      permutesTo_exists g.edges.length hTlen hTnodup (sortEdges_perm T).symm
    have hssign : edgeSortSign T = (Equiv.Perm.sign πT : ℤ) :=
      edgeSortSign_eq_sign hTnodup πT hπT
    have hcomp : PermutesTo g.edges.length (πT * πF) g.edges (sortEdges T) :=
      permutesTo_comp hπF2 hπT
    refine ⟨⟨g.gv, g.av, sortEdges T⟩, edgeSortSign T, hkres, rfl, rfl,
      sortEdges_eq_of_perm hTperm, (sortEdges_perm T).trans hTperm, ⟨πT * πF, hcomp⟩, ?_⟩
    intro ρ hρ
    have hsortnodup : (sortEdges T).Nodup := sortEdges_nodup hTnodup
    have hρeq : ρ = πT * πF := permutesTo_unique hsortnodup hρ hcomp
    rw [hρeq, hs1sign, hssign, Equiv.Perm.sign_mul]
    have : ((Equiv.Perm.sign πT * Equiv.Perm.sign πF : ℤˣ) : ℤ)
        = (Equiv.Perm.sign πT : ℤ) * (Equiv.Perm.sign πF : ℤ) := Units.val_mul _ _
    rw [this, ← mul_assoc, ← Units.val_mul, Int.units_mul_self, Units.val_one, one_mul]

/-! ## Dictionary-backed graph vectors

`GraphVector_dict` and `GraphModule_dict` of `graph/graph_vector_dict.py`.
The sparse coefficient dictionary `_vector` is modelled as an association
list with pairwise-distinct keys in insertion order; the base ring is an
abstract commutative ring with a decidable (exact) zero test; the basis is
abstracted by its two maps `graph_to_key` and `key_to_graph`. -/

section GraphVectorDict

variable {K R G : Type*} [DecidableEq K] [CommRing R] [DecidableEq R]

/-- The update `d[k] = f(d[k])` on a `defaultdict` with default `0`: update the entry in
place when the key is present, append `(k, f 0)` otherwise. -/
def dictUpsert : List (K × R) → K → (R → R) → List (K × R)
  | [], k, f => [(k, f 0)]
  | (k2, v) :: rest, k, f =>
    if k2 = k then (k2, f v) :: rest else (k2, v) :: dictUpsert rest k f

/-- Embeds `GraphVector_dict.__add__` with a same-class vector:
`v = self._vector.copy(); for k in other._vector: v[k] += other._vector[k]`. -/
def addVec (v w : List (K × R)) : List (K × R) :=
  w.foldl (fun acc p => dictUpsert acc p.1 (· + p.2)) v

/-- Embeds `GraphVector_dict.__sub__` with a same-class vector. -/
def subVec (v w : List (K × R)) : List (K × R) :=
  w.foldl (fun acc p => dictUpsert acc p.1 (· - p.2)) v

/-- Embeds `GraphVector_dict.__eq__`: form the difference and apply the ring's zero
test to every stored coefficient. -/
def vecEq (v w : List (K × R)) : Bool :=
  (subVec v w).all (fun p => decide (p.2 = 0))

/-- Embeds `GraphVector_dict.__len__`: the number of stored coefficients that are not
zero. -/
def vecLen (v : List (K × R)) : ℕ :=
  (v.filter (fun p => decide (¬ p.2 = 0))).length

/-- Embeds `GraphVector_dict.__iter__`: skip stored coefficients that reduce to zero;
for the others yield `(coefficient * sign, graph)` with graph and sign given
by the basis's `key_to_graph`. -/
def vecIter (k2g : K → Option G × ℤ) (v : List (K × R)) : List (R × Option G) :=
  v.foldr (fun p acc =>
    if p.2 = 0 then acc
    else (p.2 * (((k2g p.1).2 : ℤ) : R), (k2g p.1).1) :: acc) []

/-- Embeds `GraphModule_dict.__call__` on a list of `(coefficient, graph)` terms:
starting from the zero vector, for each term multiply the coefficient by the
sign from `graph_to_key` and accumulate it at the key, skipping terms whose
key is `None`. -/
def moduleCallList (g2k : G → Option K × ℤ) (terms : List (R × G)) : List (K × R) :=
  terms.foldl (fun v t =>
    match g2k t.2 with
    | (some k, sgn) => dictUpsert v k (· + t.1 * ((sgn : ℤ) : R))
    | (none, _) => v) []

/-- C7: for a graph `g` whose key in the basis is some `k` with sign `s`, the
vector built from the term list `[(3, g), (-3, g)]` stores the single entry
`(k, 0)` — a structurally non-empty map — yet compares equal to the zero
vector under the ring's zero-test equality, has length `0`, and yields no
terms under iteration. -/
theorem module_call_cancelling_terms (g2k : G → Option K × ℤ) (g : G) (k : K) (s : ℤ)
    (hk : g2k g = (some k, s)) :
    moduleCallList g2k [((3 : R), g), ((-3 : R), g)] = [(k, 0)] ∧
    vecEq (moduleCallList g2k [((3 : R), g), ((-3 : R), g)]) ([] : List (K × R)) = true ∧
    vecLen (moduleCallList g2k [((3 : R), g), ((-3 : R), g)]) = 0 ∧
    (∀ k2g : K → Option G × ℤ,
      vecIter k2g (moduleCallList g2k [((3 : R), g), ((-3 : R), g)]) = []) := by
  have h1 : moduleCallList g2k [((3 : R), g), ((-3 : R), g)] = [(k, 0)] := by
    rw [moduleCallList]
    simp only [foldl_cons, foldl_nil, hk]
    rw [dictUpsert]
    rw [dictUpsert]
    rw [if_pos rfl]
    have hc : (0 : R) + 3 * ((s : ℤ) : R) + -3 * ((s : ℤ) : R) = 0 := by ring
    rw [hc]
  refine ⟨h1, ?_, ?_, ?_⟩
  · rw [h1, vecEq, subVec]
    simp
  · rw [h1, vecLen]
    simp
  · intro k2g
    rw [h1, vecIter]
    simp

/-- The `other` operand of `GraphVector_dict.__add__` / `__sub__`: either an
instance of the same vector class, or any other Python object, of which the
branch condition observes only whether it compares equal to `0`. -/
inductive AddOther (K R : Type*) where
  | vec (w : List (K × R))
  | nonvec (eqZero : Bool)

/-- Embeds `GraphVector_dict.__add__`: a merged vector for a same-class operand, a
copy for an operand equal to `0`, and — both branch conditions failing — the
implicit `None` return of the Python function body, modelled by `none`. -/
def gvAdd (v : List (K × R)) : AddOther K R → Option (List (K × R))
  | .vec w => some (addVec v w)
  | .nonvec b => if b then some v else none

/-- Embeds `GraphVector_dict.__sub__`, with the same branch structure. -/
def gvSub (v : List (K × R)) : AddOther K R → Option (List (K × R))
  | .vec w => some (subVec v w)
  | .nonvec b => if b then some v else none

omit [DecidableEq R] in
/-- C9: `v + other` and `v - other` return Python `None` exactly when `other`
is neither an instance of the same vector class nor equal to `0`; a same-class
vector or an operand equal to `0` always produces a vector. -/
theorem gvAdd_gvSub_none_iff (v : List (K × R)) (o : AddOther K R) :
    (gvAdd v o = none ↔ o = AddOther.nonvec false) ∧
    (gvSub v o = none ↔ o = AddOther.nonvec false) := by
  cases o with
  | vec w => simp [gvAdd, gvSub]
  | nonvec b => cases b <;> simp [gvAdd, gvSub]

/-- The inner loop of `GraphVector_dict.insertion` over the entries of
`other._vector`, for a fixed outer entry `(k1, c1)`.  The accumulator `uc` is
the local variable `user_coeff`: it starts as the stored coefficient `c1` and
the statement `user_coeff *= user_sign` rebinds it on every inner iteration
that reaches it, so the sign factor accumulates across iterations.  The terms
appended for a pair carry `product_coeff = user_coeff * victim_coeff` as
computed *before* the sign multiplications of that iteration; the source also
computes `victim_coeff *= victim_sign`, which is never read afterwards.  The
basis map `key_to_graph` is abstracted as the total map `k2g` (the keys stored
in a vector are valid keys of its basis), and the graph-level capability
`user._insertion_graphs(position, victim)` as `ins`. -/
def insertionInner (k2g : K → G × ℤ) (pos : ℕ) (ins : G → ℕ → G → List G) (k1 : K) :
    List (K × R) → R → List (R × G)
  | [], _ => []
  | (k2, c2) :: rest, uc =>
    if c2 = 0 then insertionInner k2g pos ins k1 rest uc
    else if uc * c2 = 0 then insertionInner k2g pos ins k1 rest uc
    else
      ((ins (k2g k1).1 pos (k2g k2).1).map (fun h => (uc * c2, h)))
        ++ insertionInner k2g pos ins k1 rest (uc * (((k2g k1).2 : ℤ) : R))

/-- The term list built by the double loop of `GraphVector_dict.insertion`. -/
def insertionTerms (k2g : K → G × ℤ) (pos : ℕ) (ins : G → ℕ → G → List G)
    (vself vother : List (K × R)) : List (R × G) :=
  vself.foldr (fun p acc =>
    if p.2 = 0 then acc else insertionInner k2g pos ins p.1 vother p.2 ++ acc) []

/-- Embeds `GraphVector_dict.insertion`: build the term list and convert it into an
element of the parent module. -/
def insertion (g2k : G → Option K × ℤ) (k2g : K → G × ℤ) (pos : ℕ)
    (ins : G → ℕ → G → List G) (vself vother : List (K × R)) : List (K × R) :=
  moduleCallList g2k (insertionTerms k2g pos ins vself vother)

/-- Modelled from the spec, for comparison with `insertion`: for every pair of
terms `(c1 at k1, c2 at k2)` with `c1`, `c2` and `c1*c2` nonzero, reconstruct
the signed graphs `(g1, s1) = key_to_graph(k1)` and `(g2, s2) =
key_to_graph(k2)`, and accumulate `(c1*s1)*(c2*s2)` times each graph of
`g1.insertion_graphs(position, g2)`. -/
def insertionSpecTerms (k2g : K → G × ℤ) (pos : ℕ) (ins : G → ℕ → G → List G)
    (vself vother : List (K × R)) : List (R × G) :=
  vself.foldr (fun p acc =>
    if p.2 = 0 then acc
    else (vother.foldr (fun q acc2 =>
      if q.2 = 0 then acc2
      else if p.2 * q.2 = 0 then acc2
      else ((ins (k2g p.1).1 pos (k2g q.1).1).map
        (fun h => ((p.2 * (((k2g p.1).2 : ℤ) : R)) * (q.2 * (((k2g q.1).2 : ℤ) : R)), h)))
        ++ acc2) []) ++ acc) []

/-- Modelled from the spec, for comparison with `insertion`: the insertion
product with the signs reported by `key_to_graph` incorporated into each
accumulated coefficient exactly once per pair of terms. -/
def insertionSpec (g2k : G → Option K × ℤ) (k2g : K → G × ℤ) (pos : ℕ)
    (ins : G → ℕ → G → List G) (vself vother : List (K × R)) : List (K × R) :=
  moduleCallList g2k (insertionSpecTerms k2g pos ins vself vother)

end GraphVectorDict

/-- A toy basis for exercising `insertion`: key `0` holds graph `0` with sign
`-1`, every other key `k` holds graph `1` with sign `+1`. -/
def k2gToy : ℕ → ℕ × ℤ := fun k => if k = 0 then (0, -1) else (1, 1)

/-- A toy `graph_to_key` assigning each graph its own key with sign `+1`. -/
def g2kToy : ℕ → Option ℕ × ℤ := fun h => (some h, 1)

/-- A toy insertion capability producing the single graph `7`. -/
def insToy : ℕ → ℕ → ℕ → List ℕ := fun _ _ _ => [7]

/-- C1: evaluating `insertion` on the vectors `{key 0 ↦ 1}` and `{key 1 ↦ 1}`
over the toy basis, where `key_to_graph` reports sign `-1` for key `0` and
`+1` for key `1`.  The code accumulates coefficient `1 = c1*c2` — the signs
never reach `product_coeff` — whereas the specified sum accumulates
`(c1*s1)*(c2*s2) = -1`; the two results differ. -/
theorem insertion_sign_dropped :
    insertion g2kToy k2gToy 0 insToy [((0 : ℕ), (1 : ℤ))] [((1 : ℕ), (1 : ℤ))]
      = [((7 : ℕ), (1 : ℤ))] ∧
    insertionSpec g2kToy k2gToy 0 insToy [((0 : ℕ), (1 : ℤ))] [((1 : ℕ), (1 : ℤ))]
      = [((7 : ℕ), (-1 : ℤ))] ∧
    insertion g2kToy k2gToy 0 insToy [((0 : ℕ), (1 : ℤ))] [((1 : ℕ), (1 : ℤ))]
      ≠ insertionSpec g2kToy k2gToy 0 insToy [((0 : ℕ), (1 : ℤ))] [((1 : ℕ), (1 : ℤ))] := by
  refine ⟨by decide, by decide, by decide⟩

/-! ## The graph cache

`GraphCache.graphs` of `graph/graph_cache.py`, with persistence disabled
(`GCAOPS_DATA_DIR` unset), so the view objects are plain in-memory lists.
View identity is modelled with an explicit heap: a view object is a
reference — an index into `heap` — and the process-wide `cache` dictionary
maps a cache key (the grading together with the option tuple) to the
reference of its view. -/

section GraphCache

variable {K G : Type*} [DecidableEq K]

/-- The process-wide state of a graph cache. -/
structure CacheState (K G : Type*) where
  heap : List (List G)
  table : List (K × ℕ)
  genCount : ℕ

/-- Embeds `_add_graphs`: populate the view by running the generator to exhaustion —
unless the view already holds at least one graph, in which case generation is
assumed to have happened before and the view is left untouched. -/
def addGraphs (result : List G) (generated : List G) : List G :=
  if result.length ≠ 0 then result else result ++ generated

/-- Embeds `GraphCache.graphs` for one `(shape, options)` cache key `k`, persistence
disabled: return the memoized view when the key is in the cache dictionary;
otherwise create a fresh empty list, populate it via `_add_graphs` (running
the generator, counted by `genCount`), store it under the key, and return
it. -/
def graphsCall (gen : K → List G) (k : K) (st : CacheState K G) : ℕ × CacheState K G :=
  match st.table.lookup k with
  | some r => (r, st)
  | none =>
    let populated := addGraphs [] (gen k)
    let r := st.heap.length
    (r, ⟨st.heap ++ [populated], st.table ++ [(k, r)], st.genCount + 1⟩)

theorem lookup_append_single {l : List (K × ℕ)} {k : K} {r : ℕ}
    (h : l.lookup k = none) : (l ++ [(k, r)]).lookup k = some r := by
  induction l with
  | nil => simp
  | cons p rest ih =>
    rw [cons_append, lookup_cons]
    rw [lookup_cons] at h
    by_cases hk : (k == p.1) = true
    · rw [hk] at h
      simp at h
    · rw [Bool.not_eq_true] at hk
      rw [hk] at h ⊢
      exact ih h

/-- C3: memoization of `GraphCache.graphs`.  After a first call for the cache
key `k`, a second call (and hence every later one) returns the identical view
object — the same reference — and leaves the state unchanged: the heap is
untouched, so the view holds the same graphs in the same order, and the
generator run count does not increase.  Moreover `_add_graphs` never
regenerates or extends a view that already holds at least one graph. -/
theorem graphsCall_memoized (gen : K → List G) (k : K) (st0 : CacheState K G) :
    graphsCall gen k (graphsCall gen k st0).2
        = ((graphsCall gen k st0).1, (graphsCall gen k st0).2) ∧
    ((graphsCall gen k (graphsCall gen k st0).2).2).heap = ((graphsCall gen k st0).2).heap ∧
    ((graphsCall gen k (graphsCall gen k st0).2).2).genCount
        = ((graphsCall gen k st0).2).genCount ∧
    (∀ l gs : List G, l ≠ [] → addGraphs l gs = l) := by
  have hmain : graphsCall gen k (graphsCall gen k st0).2
      = ((graphsCall gen k st0).1, (graphsCall gen k st0).2) := by
    have hlook : ((graphsCall gen k st0).2).table.lookup k = some (graphsCall gen k st0).1 := by
      rw [graphsCall]
      cases h0 : st0.table.lookup k with
      | some r => simpa using h0
      | none =>
        show (st0.table ++ [(k, st0.heap.length)]).lookup k = some st0.heap.length
        exact lookup_append_single h0
    rw [graphsCall, hlook]
  refine ⟨hmain, by rw [hmain], by rw [hmain], ?_⟩
  intro l gs hl
  rw [addGraphs, if_pos]
  simpa using hl

end GraphCache

/-! ## The non-operadic (complex) graph bases

`FormalityGraphComplexBasis.graph_to_key` / `key_to_graph` and
`UndirectedGraphComplexBasis.graph_to_key` / `key_to_graph` share one lookup
scheme, parametrized here by the shape type `SH`, the graph type `GG`, the
canonicalizer `canon` (returning the canonical form and the sign) and the
cache (the list of basis graphs per shape). -/

section ComplexBasis

variable {SH GG : Type*} [DecidableEq GG]

/-- Python list subscription `l[i]`: a negative index counts from the end of
the list; an index out of the valid range raises `IndexError`, modelled as
`none`. -/
def pyGet {X : Type*} (l : List X) (i : ℤ) : Option X :=
  let j := if i < 0 then i + l.length else i
  if 0 ≤ j ∧ j < l.length then l[j.toNat]? else none

/-- Embeds `graph_to_key` of the complex bases: canonicalize, compute the shape, look
the canonical graph up in the cache's list by equality, and return the key
with the canonicalization sign — or `(None, 1)` when the list does not
contain it. -/
def complexGraphToKey (canon : GG → GG × ℤ) (shape : GG → SH) (cache : SH → List GG)
    (g : GG) : Option (SH × ℕ) × ℤ :=
  match listIndex? (cache (shape (canon g).1)) (canon g).1 with
  | some i => (some (shape (canon g).1, i), (canon g).2)
  | none => (none, 1)

/-- Embeds `key_to_graph` of the complex bases: subscript the cache's list for the
key's shape with the key's index — Python indexing, `IndexError` caught and
turned into `(None, 1)` — and report sign `+1`. -/
def complexKeyToGraph (cache : SH → List GG) (key : SH × ℤ) : Option GG × ℤ :=
  match pyGet (cache key.1) key.2 with
  | some g => (some g, 1)
  | none => (none, 1)

theorem pyGet_eq_none_iff {X : Type*} (l : List X) (i : ℤ) :
    pyGet l i = none ↔ i < -(l.length : ℤ) ∨ (l.length : ℤ) ≤ i := by
  rw [pyGet]
  by_cases hneg : i < 0
  · simp only [if_pos hneg]
    by_cases hin : 0 ≤ i + (l.length : ℤ) ∧ i + (l.length : ℤ) < (l.length : ℤ)
    · rw [if_pos hin]
      have hlt : (i + (l.length : ℤ)).toNat < l.length := by omega
      rw [getElem?_eq_getElem hlt]
      simp only [reduceCtorEq, false_iff]
      omega
    · rw [if_neg hin]
      simp only [true_iff]
      omega
  · simp only [if_neg hneg]
    by_cases hin : 0 ≤ i ∧ i < (l.length : ℤ)
    · rw [if_pos hin]
      have hlt : i.toNat < l.length := by omega
      rw [getElem?_eq_getElem hlt]
      simp only [reduceCtorEq, false_iff]
      omega
    · rw [if_neg hin]
      simp only [true_iff]
      omega

/-- C6 (counterexample): with a single-graph list in the cache, the key with
index `-1` is not the position of any graph in the list, yet `key_to_graph`
returns the last graph with sign `+1` — Python's negative indexing wraps
around instead of raising `IndexError` — so the result is not `(None, 1)`. -/
theorem complexKeyToGraph_wraps_negative_index :
    complexKeyToGraph (fun _ : Unit => [(5 : ℕ)]) ((), (-1 : ℤ)) = (some 5, 1) ∧
    complexKeyToGraph (fun _ : Unit => [(5 : ℕ)]) ((), (-1 : ℤ)) ≠ ((none : Option ℕ), 1) := by
  exact ⟨by decide, by decide⟩

/-- C6 (amended): `graph_to_key` returns `(None, 1)` exactly when the
canonicalized graph is absent from the cache's list for its shape; and
`key_to_graph` returns `(None, 1)` exactly when the key's index `i` satisfies
`i < -len` or `i ≥ len`, where `len` is the length of the cache's list for the
key's shape — a negative index `-len ≤ i < 0` wraps around, Python-style, to
the graph at position `len + i` — and the sign it reports is always `+1`. -/
theorem complex_basis_sentinel_spec (canon : GG → GG × ℤ) (shape : GG → SH)
    (cache : SH → List GG) (g : GG) (key : SH × ℤ) :
    (complexGraphToKey canon shape cache g = (none, 1) ↔
      (canon g).1 ∉ cache (shape (canon g).1)) ∧
    (complexKeyToGraph cache key = (none, 1) ↔
      (key.2 < -(((cache key.1).length : ℤ)) ∨ ((cache key.1).length : ℤ) ≤ key.2)) ∧
    ((key.2 < 0 ∧ -(((cache key.1).length : ℤ)) ≤ key.2) →
      ∃ gg, (cache key.1)[(key.2 + (cache key.1).length).toNat]? = some gg ∧
        complexKeyToGraph cache key = (some gg, 1)) ∧
    (complexKeyToGraph cache key).2 = 1 := by
  refine ⟨?_, ?_, ?_, ?_⟩
  · rw [complexGraphToKey]
    cases hli : listIndex? (cache (shape (canon g).1)) (canon g).1 with
    | some i =>
      simp only [reduceCtorEq, Prod.mk.injEq, false_and, false_iff]
      intro hmem
      rw [listIndex?, if_neg hmem] at hli
      exact Option.noConfusion hli
    | none =>
      simp only [true_iff]
      intro hmem
      rw [listIndex?, if_pos hmem] at hli
      exact Option.noConfusion hli
  · rw [complexKeyToGraph]
    cases hpg : pyGet (cache key.1) key.2 with
    | some gg =>
      simp only [reduceCtorEq, Prod.mk.injEq, false_and, false_iff]
      intro hrange
      rw [(pyGet_eq_none_iff _ _).mpr hrange] at hpg
      exact Option.noConfusion hpg
    | none =>
      simp only [true_iff]
      exact (pyGet_eq_none_iff _ _).mp hpg
  · intro ⟨hneg, hge⟩
    have hval : pyGet (cache key.1) key.2
        = (cache key.1)[(key.2 + (cache key.1).length).toNat]? := by
      rw [pyGet]
      simp only [if_pos hneg]
      rw [if_pos (by constructor <;> omega)]
    have hlt : (key.2 + (cache key.1).length).toNat < (cache key.1).length := by omega
    refine ⟨(cache key.1)[(key.2 + (cache key.1).length).toNat], getElem?_eq_getElem hlt, ?_⟩
    rw [complexKeyToGraph, hval, getElem?_eq_getElem hlt]
  · rw [complexKeyToGraph]
    cases pyGet (cache key.1) key.2 <;> rfl

end ComplexBasis

/-! ## The undirected graph constructor

`UndirectedGraph.__init__` of `graph/undirected_graph.py`.  Vertex labels are
embedded as integers, since the validation loop compares them only against
`num_vertices` from above.  The loop rewrites, in place, every edge
`(first, last)` with `first > last` to `(last, first)`. -/

/-- One edge as stored by the constructor loop: swapped into
nondecreasing order when `first > last`. -/
def normalizePair (e : ℤ × ℤ) : ℤ × ℤ := if e.2 < e.1 then (e.2, e.1) else e

/-- The validation-and-normalization loop of `UndirectedGraph.__init__`:
for each edge, raise (`none`) when an endpoint is `≥ num_vertices`, and
otherwise store the order-normalized pair. -/
def processEdges (n : ℤ) : List (ℤ × ℤ) → Option (List (ℤ × ℤ))
  | [] => some []
  | e :: rest =>
    if n ≤ e.1 ∨ n ≤ e.2 then none
    else (processEdges n rest).map (fun r => normalizePair e :: r)

/-- Embeds `UndirectedGraph.__init__`: reject a negative vertex count, then run the
edge loop; on success the constructed graph is the vertex count together with
the rewritten edge list. -/
def undirectedGraphInit (n : ℤ) (edges : List (ℤ × ℤ)) : Option (ℤ × List (ℤ × ℤ)) :=
  if ¬ n ≥ 0 then none
  else (processEdges n edges).map (fun l => (n, l))

theorem processEdges_eq_none_iff (n : ℤ) (edges : List (ℤ × ℤ)) :
    processEdges n edges = none ↔ ∃ e ∈ edges, n ≤ e.1 ∨ n ≤ e.2 := by
  induction edges with
  | nil => simp [processEdges]
  | cons e rest ih =>
    rw [processEdges]
    by_cases he : n ≤ e.1 ∨ n ≤ e.2
    · rw [if_pos he]
      simp only [mem_cons, true_iff]
      exact ⟨e, Or.inl rfl, he⟩
    · rw [if_neg he, Option.map_eq_none', ih]
      constructor
      · rintro ⟨e2, he2, hp⟩
        exact ⟨e2, mem_cons_of_mem e he2, hp⟩
      · rintro ⟨e2, he2, hp⟩
        rcases mem_cons.mp he2 with h | h
        · rw [h] at hp
          exact absurd hp he
        · exact ⟨e2, h, hp⟩

theorem processEdges_eq_some (n : ℤ) {edges l : List (ℤ × ℤ)}
    (h : processEdges n edges = some l) : l = edges.map normalizePair := by
  induction edges generalizing l with
  | nil =>
    rw [processEdges] at h
    simp only [Option.some_injective _ h.symm, map_nil]
  | cons e rest ih =>
    rw [processEdges] at h
    by_cases he : n ≤ e.1 ∨ n ≤ e.2
    · rw [if_pos he] at h
      exact Option.noConfusion h
    · rw [if_neg he] at h
      cases hr : processEdges n rest with
      | none =>
        rw [hr] at h
        exact Option.noConfusion h
      | some r =>
        rw [hr] at h
        have : normalizePair e :: r = l := by
          simpa using h
        rw [← this, map_cons, ih hr]

theorem normalizePair_le (e : ℤ × ℤ) : (normalizePair e).1 ≤ (normalizePair e).2 := by
  rw [normalizePair]
  by_cases h : e.2 < e.1
  · rw [if_pos h]
    exact le_of_lt h
  · rw [if_neg h]
    omega

/-- C8 (counterexample): the claim requires construction to raise for an edge
with the negative vertex index `-1`; the constructor's guard only compares
labels against `num_vertices` from above, so `UndirectedGraph(1, [(-1, 0)])`
is constructed successfully, storing the edge `(-1, 0)` unchanged. -/
theorem undirectedGraphInit_accepts_negative_label :
    undirectedGraphInit 1 [((-1 : ℤ), (0 : ℤ))] = some (1, [(-1, 0)]) ∧
    undirectedGraphInit 1 [((-1 : ℤ), (0 : ℤ))] ≠ none := by
  exact ⟨by decide, by decide⟩

/-- C8 (amended): `UndirectedGraph.__init__` raises exactly when the vertex
count is negative or some edge endpoint is `≥ num_vertices` — endpoints are
not checked from below, so negative vertex indices in an edge are accepted —
and every successfully constructed graph stores each edge as a pair
`(first, last)` with `first ≤ last`. -/
theorem undirectedGraphInit_spec (n : ℤ) (edges : List (ℤ × ℤ)) :
    (undirectedGraphInit n edges = none ↔
      n < 0 ∨ ∃ e ∈ edges, n ≤ e.1 ∨ n ≤ e.2) ∧
    (∀ m l, undirectedGraphInit n edges = some (m, l) →
      m = n ∧ l = edges.map normalizePair ∧ ∀ e ∈ l, e.1 ≤ e.2) := by
  constructor
  · rw [undirectedGraphInit]
    by_cases hn : ¬ n ≥ 0
    · rw [if_pos hn]
      simp only [true_iff]
      left
      omega
    · rw [if_neg hn, Option.map_eq_none', processEdges_eq_none_iff]
      constructor
      · exact Or.inr
      · intro h
        rcases h with h | h
        · omega
        · exact h
  · intro m l h
    rw [undirectedGraphInit] at h
    by_cases hn : ¬ n ≥ 0
    · rw [if_pos hn] at h
      exact Option.noConfusion h
    · rw [if_neg hn] at h
      cases hp : processEdges n edges with
      | none =>
        rw [hp] at h
        exact Option.noConfusion h
      | some r =>
        rw [hp] at h
        have hpair : (n, r) = (m, l) := by simpa using h
        have hm : m = n := (congrArg Prod.fst hpair).symm
        have hl : l = r := (congrArg Prod.snd hpair).symm
        refine ⟨hm, ?_, ?_⟩
        · rw [hl, processEdges_eq_some n hp]
        · intro e he
          rw [hl, processEdges_eq_some n hp] at he
          obtain ⟨e0, _, he0⟩ := mem_map.mp he
          rw [← he0]
          exact normalizePair_le e0

/-! ## In-place mutation of the caller's edge list

`UndirectedGraph` keeps a *reference* to the edge list the caller passed:
`self._edges = edges` aliases it, the constructor loop assigns
`self._edges[k] = (last, first)` into that same list object, `edges()`
returns it, and `canonicalize_edges()` sorts it in place.  The embedding
makes the aliasing explicit with a heap of list objects: a reference is an
index into the heap, and a graph holds the reference it was constructed
with. -/

/-- A heap of edge-list objects; a list-object reference is an index. -/
abbrev EdgeHeap := List (List (ℤ × ℤ))

/-- An `UndirectedGraph` as stored state: the vertex count and the reference
to the very list object the caller passed to the constructor. -/
structure UGraphRef where
  numVertices : ℤ
  edgesRef : ℕ

/-- Read the list object at a reference. -/
def heapGet (st : EdgeHeap) (r : ℕ) : List (ℤ × ℤ) := st.getD r []

/-- Overwrite the list object at a reference, in place. -/
def heapSet (st : EdgeHeap) (r : ℕ) (l : List (ℤ × ℤ)) : EdgeHeap := st.set r l

/-- Sorting an integer edge list lexicographically, with the selection-sort
sign, as `canonicalize_edges` does. -/
def sortEdgesInt (l : List (ℤ × ℤ)) : List (ℤ × ℤ) × ℤ :=
  let p := selSort (l.map (toLex : ℤ × ℤ → Lex (ℤ × ℤ)))
  (p.1.map (ofLex : Lex (ℤ × ℤ) → ℤ × ℤ), p.2)

/-- Embeds `UndirectedGraph.__init__` acting on the heap: validate and rewrite the
caller's list object in place, and store the reference. -/
def ugInit (st : EdgeHeap) (n : ℤ) (r : ℕ) : Option (EdgeHeap × UGraphRef) :=
  if ¬ n ≥ 0 then none
  else match processEdges n (heapGet st r) with
    | some l => some (heapSet st r l, ⟨n, r⟩)
    | none => none

/-- Embeds `UndirectedGraph.edges`: return the internal list object itself — the
reference, not a copy. -/
def ugEdges (g : UGraphRef) : ℕ := g.edgesRef

/-- Embeds `UndirectedGraph.canonicalize_edges`: sort the internal list object in
place and return the sign of the edge permutation. -/
def ugCanonicalizeEdges (st : EdgeHeap) (g : UGraphRef) : EdgeHeap × ℤ :=
  (heapSet st g.edgesRef (sortEdgesInt (heapGet st g.edgesRef)).1,
    (sortEdgesInt (heapGet st g.edgesRef)).2)

/-- C10: construction stores the caller's edge list by reference and rewrites
it in place — after `ugInit` the caller's own reference `r` holds the
order-normalized edges, and no other list object changes; `edges()` returns
that same reference; and `canonicalize_edges()` sorts the same list object in
place, so the reordering is observable through any alias of the list obtained
earlier from `edges()` or from the constructor argument. -/
theorem ugInit_mutates_in_place (st : EdgeHeap) (n : ℤ) (r : ℕ) (st2 : EdgeHeap)
    (g : UGraphRef) (hr : r < st.length) (h : ugInit st n r = some (st2, g)) :
    ugEdges g = r ∧
    heapGet st2 r = (heapGet st r).map normalizePair ∧
    (∀ r2, r2 ≠ r → heapGet st2 r2 = heapGet st r2) ∧
    heapGet (ugCanonicalizeEdges st2 g).1 r
      = (sortEdgesInt ((heapGet st r).map normalizePair)).1 := by
  rw [ugInit] at h
  by_cases hn : ¬ n ≥ 0
  · rw [if_pos hn] at h
    exact Option.noConfusion h
  · rw [if_neg hn] at h
    cases hp : processEdges n (heapGet st r) with
    | none =>
      rw [hp] at h
      exact Option.noConfusion h
    | some l =>
      rw [hp] at h
      have hpair : (heapSet st r l, (⟨n, r⟩ : UGraphRef)) = (st2, g) := by simpa using h
      have hst2 : st2 = heapSet st r l := (congrArg Prod.fst hpair).symm
      have hg : g = ⟨n, r⟩ := (congrArg Prod.snd hpair).symm
      have hleq : l = (heapGet st r).map normalizePair := processEdges_eq_some n hp
      have hget2 : heapGet st2 r = (heapGet st r).map normalizePair := by
        rw [hst2, heapSet, heapGet, getD_eq_getElem?_getD, getElem?_set_self (by exact hr)]
        rw [← hleq]
        rfl
      refine ⟨by rw [hg]; rfl, hget2, ?_, ?_⟩
      · intro r2 hr2
        rw [hst2, heapSet, heapGet, heapGet, getD_eq_getElem?_getD, getD_eq_getElem?_getD,
          getElem?_set_ne (fun hq => hr2 hq.symm)]
      · have hrefs : g.edgesRef = r := by rw [hg]
        rw [ugCanonicalizeEdges]
        show heapGet (heapSet st2 g.edgesRef (sortEdgesInt (heapGet st2 g.edgesRef)).1) r = _
        rw [hrefs, hget2, heapSet, heapGet, getD_eq_getElem?_getD,
          getElem?_set_self (by rw [hst2, heapSet, length_set]; exact hr)]
        rfl

/-! ## Concrete instances for the theorems with hypotheses -/

/-- A concrete formality graph: one ground vertex, one aerial vertex, and the
two-cycle of edges `(0,1)` and `(1,0)`. -/
def gW : FormalityGraph := ⟨1, 1, [(0, 1), (1, 0)]⟩

/-- The identity relabeling, as certified by the oracle on an already
canonical graph. -/
def idW : ℕ → ℕ := fun v => v

/-- A one-entry cache holding `gW` at its shape. -/
def cacheW : FGShape → List FormalityGraph := fun sh => if sh = (1, 1, 2) then [gW] else []

/-- The key produced for `gW` over `cacheW`. -/
def keyW : FGShape × ℕ × List ℕ := ((1, 1, 2), 0, [0, 1])

theorem formality_graph_canonicalize_spec_witness :
    gW.edges.Nodup ∧
    (∀ v, v < gW.gv + gW.av → idW v < gW.gv + gW.av) ∧
    (∀ e ∈ gW.edges, e.1 < gW.gv + gW.av ∧ e.2 < gW.gv + gW.av) ∧
    (∃ G undo s, formality_graph_canonicalize idW gW = some (G, undo, s) ∧
      G.gv = gW.gv ∧ G.av = gW.av ∧
      G.edges = sortEdges (gW.edges.map (edgeMap idW)) ∧
      (∃ π : Equiv.Perm (Fin gW.edges.length),
        PermutesTo gW.edges.length π (gW.edges.map (edgeMap idW)) G.edges) ∧
      (∀ π : Equiv.Perm (Fin gW.edges.length),
        PermutesTo gW.edges.length π (gW.edges.map (edgeMap idW)) G.edges →
          s = (Equiv.Perm.sign π : ℤ)) ∧
      (G.relabeled undo).gv = gW.gv ∧ (G.relabeled undo).av = gW.av ∧
      (G.relabeled undo).edges ~ gW.edges) :=
  ⟨by decide, fun v hv => hv, by decide,
    formality_graph_canonicalize_spec gW idW (by decide) (fun v hv => hv)
      (fun v w _ _ h => h) (by decide)⟩

theorem operad_basis_roundtrip_witness :
    gW.edges.Nodup ∧
    operadGraphToKey idW cacheW gW = .ok (some keyW, 1) ∧
    (∃ g2 s, operadKeyToGraph cacheW keyW = (some g2, s) ∧
      g2.gv = gW.gv ∧ g2.av = gW.av ∧ g2.edges = sortEdges gW.edges ∧ g2.edges ~ gW.edges ∧
      (∃ π : Equiv.Perm (Fin gW.edges.length),
        PermutesTo gW.edges.length π gW.edges g2.edges) ∧
      (∀ π : Equiv.Perm (Fin gW.edges.length),
        PermutesTo gW.edges.length π gW.edges g2.edges →
          (1 : ℤ) = s * (Equiv.Perm.sign π : ℤ))) :=
  ⟨by decide, rfl,
    operad_basis_roundtrip idW cacheW gW keyW 1 (by decide) (fun v hv => hv)
      (fun v w _ _ h => h) (by decide) rfl⟩

/-- A toy `graph_to_key` over the unit graph type. -/
def g2kW : Unit → Option ℕ × ℤ := fun _ => (some 0, 1)

theorem module_call_cancelling_terms_witness :
    g2kW () = (some 0, 1) ∧
    (moduleCallList g2kW [((3 : ℤ), ()), ((-3 : ℤ), ())] = [(0, 0)] ∧
      vecEq (moduleCallList g2kW [((3 : ℤ), ()), ((-3 : ℤ), ())]) ([] : List (ℕ × ℤ)) = true ∧
      vecLen (moduleCallList g2kW [((3 : ℤ), ()), ((-3 : ℤ), ())]) = 0 ∧
      (∀ k2g : ℕ → Option Unit × ℤ,
        vecIter k2g (moduleCallList g2kW [((3 : ℤ), ()), ((-3 : ℤ), ())]) = [])) :=
  ⟨rfl, module_call_cancelling_terms g2kW () 0 1 rfl⟩

theorem complex_basis_sentinel_spec_witness :
    ((complexGraphToKey (fun g : ℕ => (g, 1)) (fun _ => ()) (fun _ : Unit => [5]) 5
        = (none, 1)) ↔ (5 : ℕ) ∉ [5]) ∧
    ((complexKeyToGraph (fun _ : Unit => [(5 : ℕ)]) ((), 0) = (none, 1)) ↔
      ((0 : ℤ) < -((([(5 : ℕ)]).length : ℤ)) ∨ ((([(5 : ℕ)]).length : ℤ)) ≤ 0)) ∧
    (((0 : ℤ) < 0 ∧ -((([(5 : ℕ)]).length : ℤ)) ≤ 0) →
      ∃ gg, ([(5 : ℕ)])[((0 : ℤ) + ([(5 : ℕ)]).length).toNat]? = some gg ∧
        complexKeyToGraph (fun _ : Unit => [(5 : ℕ)]) ((), 0) = (some gg, 1)) ∧
    (complexKeyToGraph (fun _ : Unit => [(5 : ℕ)]) ((), 0)).2 = 1 :=
  complex_basis_sentinel_spec (fun g : ℕ => (g, 1)) (fun _ => ()) (fun _ : Unit => [5]) 5 ((), 0)

theorem undirectedGraphInit_spec_witness :
    (undirectedGraphInit 2 [((1 : ℤ), (0 : ℤ))] = none ↔
      (2 : ℤ) < 0 ∨ ∃ e ∈ [((1 : ℤ), (0 : ℤ))], (2 : ℤ) ≤ e.1 ∨ (2 : ℤ) ≤ e.2) ∧
    (∀ m l, undirectedGraphInit 2 [((1 : ℤ), (0 : ℤ))] = some (m, l) →
      m = 2 ∧ l = [((1 : ℤ), (0 : ℤ))].map normalizePair ∧ ∀ e ∈ l, e.1 ≤ e.2) :=
  undirectedGraphInit_spec 2 [((1 : ℤ), (0 : ℤ))]

theorem ugInit_mutates_in_place_witness :
    (0 : ℕ) < ([[((1 : ℤ), (0 : ℤ))]] : EdgeHeap).length ∧
    ugInit [[((1 : ℤ), (0 : ℤ))]] 2 0 = some ([[((0 : ℤ), (1 : ℤ))]], ⟨2, 0⟩) ∧
    (ugEdges (⟨2, 0⟩ : UGraphRef) = 0 ∧
      heapGet [[((0 : ℤ), (1 : ℤ))]] 0
        = (heapGet [[((1 : ℤ), (0 : ℤ))]] 0).map normalizePair ∧
      (∀ r2, r2 ≠ 0 →
        heapGet [[((0 : ℤ), (1 : ℤ))]] r2 = heapGet [[((1 : ℤ), (0 : ℤ))]] r2) ∧
      heapGet (ugCanonicalizeEdges [[((0 : ℤ), (1 : ℤ))]] ⟨2, 0⟩).1 0
        = (sortEdgesInt ((heapGet [[((1 : ℤ), (0 : ℤ))]] 0).map normalizePair)).1) :=
  ⟨by decide, rfl,
    ugInit_mutates_in_place [[((1 : ℤ), (0 : ℤ))]] 2 0 [[((0 : ℤ), (1 : ℤ))]] ⟨2, 0⟩
      (by decide) rfl⟩

end Gcaops
